import Mathlib

/-!
# Verification of the `convolve` image-processing notebook

This file gives a shallow embedding of the Python source (a Jupyter
notebook implementing boundary-renormalized 2D convolution with Gaussian
kernels, a separable two-pass pipeline, and thin image I/O glue) and
proves properties of that embedding.

Modelling conventions:
* numpy `float32` arrays are modelled with exact field arithmetic
  (a general field `F`, instantiated at `ℚ` for executable examples and
  at `ℝ` for the Gaussian kernels, which use `Real.exp`).
* A 3-d array (shape `C × H × W`) is a shape triple plus a total data
  function; out-of-range cells hold junk values that are never read by
  the embedded code.
* Kernel (2-d array) indices are integers, since the source indexes the
  kernel with the signed expression `v - y + kernel_halfh`.
* Mutation of an output buffer is modelled by returning the new buffer
  value: `convolve image output kernel` is the state of `output` after
  the call.
-/

/-- A 2-d array (numpy kernel): a height, a width and a data function on
integer indices. Only indices in `[0,kH) × [0,kW)` are meaningful. -/
structure Arr2 (F : Type) where
  kH : ℕ
  kW : ℕ
  data : ℤ → ℤ → F

/-- A 3-d array (numpy image in planar `C×H×W` layout). -/
@[ext]
structure Arr3 (F : Type) where
  C : ℕ
  H : ℕ
  W : ℕ
  data : ℕ → ℕ → ℕ → F

/-- The `numpy.transpose` of a 2-d array (used as `kernel_1d.transpose()` in
the separable pipeline). -/
def Arr2.transpose {F : Type} (k : Arr2 F) : Arr2 F :=
  ⟨k.kW, k.kH, fun i j => k.data j i⟩

/-- Embeds `np.zeros(img.shape, dtype=np.float32)`. -/
def zerosLike {F : Type} [Field F] (C H W : ℕ) : Arr3 F :=
  ⟨C, H, W, fun _ _ _ => 0⟩

/-- Shallow embedding of the notebook's `convolve(image, output, kernel)`.

The source iterates `x` over the width, `y` over the height and `c` over
the channels, computes the clamped neighborhood
`x_min = max(0, x - kernel_halfw)`, `x_max = min(image_width - 1, x +
kernel_halfw)` (and similarly for `y`), accumulates `value` and `total`
over the neighborhood and stores `value / total` in `output[c, y, x]`.

Here the loop nest is rendered cell-wise: each in-range output cell gets
the value the loop body assigns to it (each cell is written exactly
once, so the write order is irrelevant); out-of-range cells keep the
prior contents of `output`.  Note that on `ℕ` the truncated subtraction
`x - kernel_halfw` coincides with Python's `max(0, x - kernel_halfw)`.
The accumulation of `value` and `total` is a left fold over the ranges
`range(x_min, x_max + 1)` and `range(y_min, y_max + 1)`, exactly as the
two inner `for` loops run. -/
def convolve {F : Type} [Field F] (image output : Arr3 F) (kernel : Arr2 F) :
    Arr3 F :=
  let channel_count := image.C
  let image_height := image.H
  let image_width := image.W
  let kernel_halfh := kernel.kH / 2
  let kernel_halfw := kernel.kW / 2
  { output with data := fun c y x =>
      if c < channel_count ∧ y < image_height ∧ x < image_width then
        let x_min := x - kernel_halfw
        let x_max := min (image_width - 1) (x + kernel_halfw)
        let y_min := y - kernel_halfh
        let y_max := min (image_height - 1) (y + kernel_halfh)
        let acc :=
          (List.range' x_min (x_max + 1 - x_min)).foldl (fun a u =>
            (List.range' y_min (y_max + 1 - y_min)).foldl (fun b v =>
              (b.1 + image.data c v u *
                  kernel.data ((v : ℤ) - (y : ℤ) + (kernel_halfh : ℤ))
                    ((u : ℤ) - (x : ℤ) + (kernel_halfw : ℤ)),
               b.2 + kernel.data ((v : ℤ) - (y : ℤ) + (kernel_halfh : ℤ))
                    ((u : ℤ) - (x : ℤ) + (kernel_halfw : ℤ)))) a)
            ((0 : F), (0 : F))
        acc.1 / acc.2
      else output.data c y x }

section LoopSums

variable {F : Type} [Field F]

/-- A left fold that adds `f` into the first component and `g` into the
second computes the pair of sums (one accumulation step of the source's
`value += ...; total += ...` loop body). -/
theorem foldl_pair_sum (f g : ℕ → F) :
    ∀ (l : List ℕ) (p : F × F),
      l.foldl (fun b v => (b.1 + f v, b.2 + g v)) p
        = (p.1 + (l.map f).sum, p.2 + (l.map g).sum) := by
  intro l
  induction l with
  | nil => intro p; simp
  | cons e t ih =>
      intro p
      rw [List.foldl_cons, ih]
      simp [add_assoc]

/-- The nested `u`/`v` accumulation loop of `convolve` computes the pair
of double sums. -/
theorem foldl_nested_sum (f g : ℕ → ℕ → F) (inner : List ℕ) :
    ∀ (l : List ℕ) (p : F × F),
      l.foldl (fun a u =>
          inner.foldl (fun b v => (b.1 + f u v, b.2 + g u v)) a) p
        = (p.1 + (l.map fun u => (inner.map (f u)).sum).sum,
           p.2 + (l.map fun u => (inner.map (g u)).sum).sum) := by
  intro l
  induction l with
  | nil => intro p; simp
  | cons e t ih =>
      intro p
      rw [List.foldl_cons, foldl_pair_sum, ih]
      simp [add_assoc]

/-- Summing a function over `range(a, a+n)` is a `Finset` sum. -/
theorem range'_map_sum (f : ℕ → F) :
    ∀ (n a : ℕ),
      ((List.range' a n).map f).sum = ∑ t ∈ Finset.range n, f (a + t) := by
  intro n
  induction n with
  | zero => intro a; simp
  | succ m ih =>
      intro a
      rw [List.range'_succ, List.map_cons, List.sum_cons, ih,
        Finset.sum_range_succ']
      have h1 : ∀ t ∈ Finset.range m, f (a + 1 + t) = f (a + (t + 1)) := by
        intro t _
        congr 1
        omega
      rw [Finset.sum_congr rfl h1, add_comm, add_zero]

/-- Summing over `range(m, n+1)` is the sum over `Finset.Icc m n`. -/
theorem range'_map_sum_Icc (f : ℕ → F) (m n : ℕ) :
    ((List.range' m (n + 1 - m)).map f).sum = ∑ t ∈ Finset.Icc m n, f t := by
  rw [range'_map_sum, ← Nat.Ico_succ_right, Finset.sum_Ico_eq_sum_range]

/-- The kernel weight the source reads for image position `(v, u)` when
computing output position `(y, x)`. -/
def tapWeight (kernel : Arr2 F) (y x v u : ℕ) : F :=
  kernel.data ((v : ℤ) - (y : ℤ) + (kernel.kH / 2 : ℕ))
    ((u : ℤ) - (x : ℤ) + (kernel.kW / 2 : ℕ))

/-- Characterization of `convolve`: each in-range output cell is the
accumulated weighted sum divided by the accumulated weight total, both
expressed as `Finset` sums over the clamped neighborhood.  (Recall that
truncated subtraction makes `x - kernel.kW / 2` equal to
`max(0, x - kernel.kW / 2)`.) -/
theorem convolve_data_eq_sum (image output : Arr3 F) (kernel : Arr2 F)
    (c y x : ℕ) (hc : c < image.C) (hy : y < image.H) (hx : x < image.W) :
    (convolve image output kernel).data c y x =
      (∑ u ∈ Finset.Icc (x - kernel.kW / 2)
            (min (image.W - 1) (x + kernel.kW / 2)),
          ∑ v ∈ Finset.Icc (y - kernel.kH / 2)
            (min (image.H - 1) (y + kernel.kH / 2)),
            image.data c v u * tapWeight kernel y x v u) /
      (∑ u ∈ Finset.Icc (x - kernel.kW / 2)
            (min (image.W - 1) (x + kernel.kW / 2)),
          ∑ v ∈ Finset.Icc (y - kernel.kH / 2)
            (min (image.H - 1) (y + kernel.kH / 2)),
            tapWeight kernel y x v u) := by
  show (if c < image.C ∧ y < image.H ∧ x < image.W then _ else _) = _
  rw [if_pos ⟨hc, hy, hx⟩]
  simp only [tapWeight]
  rw [foldl_nested_sum
    (fun u v => image.data c v u *
      kernel.data ((v : ℤ) - (y : ℤ) + (kernel.kH / 2 : ℕ))
        ((u : ℤ) - (x : ℤ) + (kernel.kW / 2 : ℕ)))
    (fun u v =>
      kernel.data ((v : ℤ) - (y : ℤ) + (kernel.kH / 2 : ℕ))
        ((u : ℤ) - (x : ℤ) + (kernel.kW / 2 : ℕ)))]
  simp only [zero_add]
  rw [range'_map_sum_Icc, range'_map_sum_Icc]
  congr 1

/-- Each in-range cell of the result of `convolve` does not depend on
the prior contents of the output buffer: the loop body reads only
`image` and `kernel`. -/
theorem convolve_data_indep (image o₁ o₂ : Arr3 F) (kernel : Arr2 F)
    (c y x : ℕ) (hc : c < image.C) (hy : y < image.H) (hx : x < image.W) :
    (convolve image o₁ kernel).data c y x
      = (convolve image o₂ kernel).data c y x := by
  show (if c < image.C ∧ y < image.H ∧ x < image.W then _ else _)
    = (if c < image.C ∧ y < image.H ∧ x < image.W then _ else _)
  rw [if_pos ⟨hc, hy, hx⟩, if_pos ⟨hc, hy, hx⟩]

/-- Cells outside the image footprint are untouched by `convolve`. -/
theorem convolve_data_frame (image output : Arr3 F) (kernel : Arr2 F)
    (c y x : ℕ) (h : ¬(c < image.C ∧ y < image.H ∧ x < image.W)) :
    (convolve image output kernel).data c y x = output.data c y x := by
  show (if c < image.C ∧ y < image.H ∧ x < image.W then _ else _) = _
  rw [if_neg h]

/-- The function `convolve` only reads in-range cells of `image`: two images of equal
shape agreeing on all in-range cells convolve identically. -/
theorem convolve_congr_image (img₁ img₂ output : Arr3 F) (kernel : Arr2 F)
    (hC : img₁.C = img₂.C) (hH : img₁.H = img₂.H) (hW : img₁.W = img₂.W)
    (hdata : ∀ c y x, c < img₁.C → y < img₁.H → x < img₁.W →
      img₁.data c y x = img₂.data c y x) :
    convolve img₁ output kernel = convolve img₂ output kernel := by
  refine Arr3.ext rfl rfl rfl
    (funext fun c => funext fun y => funext fun x => ?_)
  by_cases hin : c < img₁.C ∧ y < img₁.H ∧ x < img₁.W
  · obtain ⟨hc, hy, hx⟩ := hin
    rw [convolve_data_eq_sum img₁ output kernel c y x hc hy hx,
      convolve_data_eq_sum img₂ output kernel c y x
        (hC ▸ hc) (hH ▸ hy) (hW ▸ hx), ← hH, ← hW]
    congr 1
    refine Finset.sum_congr rfl fun u hu => ?_
    refine Finset.sum_congr rfl fun v hv => ?_
    rw [Finset.mem_Icc] at hu hv
    have hu2 : u < img₁.W := by
      have h1 := le_trans hu.2 (min_le_left _ _)
      omega
    have hv2 : v < img₁.H := by
      have h1 := le_trans hv.2 (min_le_left _ _)
      omega
    rw [hdata c v u hc hv2 hu2]
  · have h2 : ¬(c < img₂.C ∧ y < img₂.H ∧ x < img₂.W) := by
      rw [← hC, ← hH, ← hW]
      exact hin
    rw [convolve_data_frame img₁ output kernel c y x hin,
      convolve_data_frame img₂ output kernel c y x h2]

end LoopSums

section Totals

variable {F : Type} [LinearOrderedField F]

/-- For neighborhood positions inside the clamped bounds of an
odd-dimension kernel, the tap index read from the kernel is in range, so
a kernel with non-negative in-range weights yields a non-negative tap. -/
theorem tapWeight_nonneg (kernel : Arr2 F)
    (hodd_h : kernel.kH % 2 = 1) (hodd_w : kernel.kW % 2 = 1)
    (hnn : ∀ i j : ℤ, 0 ≤ i → i < (kernel.kH : ℤ) → 0 ≤ j →
      j < (kernel.kW : ℤ) → 0 ≤ kernel.data i j)
    (y x v u : ℕ)
    (hv1 : y - kernel.kH / 2 ≤ v) (hv2 : v ≤ y + kernel.kH / 2)
    (hu1 : x - kernel.kW / 2 ≤ u) (hu2 : u ≤ x + kernel.kW / 2) :
    0 ≤ tapWeight kernel y x v u := by
  apply hnn <;> omega

/-- The center tap (at image position `(y, x)` itself) reads the kernel
center `kernel[kH/2, kW/2]`. -/
theorem tapWeight_center (kernel : Arr2 F) (y x : ℕ) :
    tapWeight kernel y x y x
      = kernel.data (kernel.kH / 2 : ℕ) (kernel.kW / 2 : ℕ) := by
  simp [tapWeight]

/-- The per-pixel weight total accumulated by `convolve` is strictly
positive whenever the kernel has odd dimensions, non-negative in-range
weights and a positive center weight: the center tap is always inside
the image bounds. -/
theorem convolve_total_pos (image : Arr3 F) (kernel : Arr2 F)
    (hodd_h : kernel.kH % 2 = 1) (hodd_w : kernel.kW % 2 = 1)
    (hnn : ∀ i j : ℤ, 0 ≤ i → i < (kernel.kH : ℤ) → 0 ≤ j →
      j < (kernel.kW : ℤ) → 0 ≤ kernel.data i j)
    (hcenter : 0 < kernel.data (kernel.kH / 2 : ℕ) (kernel.kW / 2 : ℕ))
    (y x : ℕ) (hy : y < image.H) (hx : x < image.W) :
    0 < ∑ u ∈ Finset.Icc (x - kernel.kW / 2)
          (min (image.W - 1) (x + kernel.kW / 2)),
        ∑ v ∈ Finset.Icc (y - kernel.kH / 2)
          (min (image.H - 1) (y + kernel.kH / 2)),
          tapWeight kernel y x v u := by
  have hxmem : x ∈ Finset.Icc (x - kernel.kW / 2)
      (min (image.W - 1) (x + kernel.kW / 2)) := by
    rw [Finset.mem_Icc]
    exact ⟨by omega, le_min (by omega) (by omega)⟩
  have hymem : y ∈ Finset.Icc (y - kernel.kH / 2)
      (min (image.H - 1) (y + kernel.kH / 2)) := by
    rw [Finset.mem_Icc]
    exact ⟨by omega, le_min (by omega) (by omega)⟩
  have hnn' : ∀ u ∈ Finset.Icc (x - kernel.kW / 2)
      (min (image.W - 1) (x + kernel.kW / 2)),
      ∀ v ∈ Finset.Icc (y - kernel.kH / 2)
        (min (image.H - 1) (y + kernel.kH / 2)),
      0 ≤ tapWeight kernel y x v u := by
    intro u hu v hv
    rw [Finset.mem_Icc] at hu hv
    have hu2 := le_trans hu.2 (min_le_right _ _)
    have hv2 := le_trans hv.2 (min_le_right _ _)
    exact tapWeight_nonneg kernel hodd_h hodd_w hnn y x v u hv.1 hv2 hu.1 hu2
  refine Finset.sum_pos' (fun u hu => Finset.sum_nonneg (hnn' u hu)) ?_
  refine ⟨x, hxmem, Finset.sum_pos' (hnn' x hxmem) ⟨y, hymem, ?_⟩⟩
  rw [tapWeight_center]
  exact hcenter

end Totals

section ConcreteArrays

/-- A 1-channel `3×1` image: a single column holding `0, 1, 0`. -/
def colImg : Arr3 ℚ := ⟨1, 3, 1, fun _ y _ => if y = 1 then 1 else 0⟩

/-- A `3×1` column kernel with weights `1, 2, 1`. -/
def colKer : Arr2 ℚ := ⟨3, 1, fun i _ => if i = 1 then 2 else 1⟩

/-- A 1-channel `1×1` image holding the value `3`. -/
def px1Img : Arr3 ℚ := ⟨1, 1, 1, fun _ _ _ => 3⟩

/-- A `1×1` kernel with weight `2`. -/
def px1Ker : Arr2 ℚ := ⟨1, 1, fun _ _ => 2⟩

/-- A 1-channel `1×1` constant image holding the value `1`. -/
def constImg : Arr3 ℚ := ⟨1, 1, 1, fun _ _ _ => 1⟩

/-- A normalized `3×1` kernel (weights `1, 0, 0`, summing to `1`) whose
center weight is `0`. -/
def badKer : Arr2 ℚ := ⟨3, 1, fun i _ => if i = 0 then 1 else 0⟩

/-- A `1×3` row kernel with weights `1, 2, 1`. -/
def rowKer : Arr2 ℚ := ⟨1, 3, fun _ j => if j = 1 then 2 else 1⟩

/-- A `2×2` kernel (even dimensions) with all weights `1`. -/
def evenKer : Arr2 ℚ := ⟨2, 2, fun _ _ => 1⟩

/-- A 1-channel `1×1` all-zero image. -/
def zeroImg : Arr3 ℚ := ⟨1, 1, 1, fun _ _ _ => 0⟩

end ConcreteArrays

section GaussianKernels

/-- Embeds `kernel_radius = np.ceil(sigma) * 3` and
`kernel_size = kernel_radius * 2 + 1`; the size as a natural number
(numpy materializes it as the length of
`np.arange(-kernel_radius, kernel_radius + 1)`, which is empty when
`2 * kernel_radius + 1 ≤ 0`). -/
noncomputable def gaussSize (σ : ℝ) : ℕ := (⌈σ⌉ * 3 * 2 + 1).toNat

/-- Embeds `ax = np.arange(-kernel_radius, kernel_radius + 1.)`: the coordinate
of grid index `t` is `-kernel_radius + t`. -/
noncomputable def gaussAx (σ : ℝ) (t : ℤ) : ℝ := ((-(⌈σ⌉ * 3) + t : ℤ) : ℝ)

/-- The unnormalized 1D weight
`np.exp(-(ax**2) / (2. * sigma**2))` at grid index `t`. -/
noncomputable def gaussRaw1 (σ : ℝ) (t : ℤ) : ℝ :=
  Real.exp (-(gaussAx σ t ^ 2) / (2 * σ ^ 2))

/-- The `np.sum` of the unnormalized 1D kernel. -/
noncomputable def gaussSum1 (σ : ℝ) : ℝ :=
  ∑ t ∈ Finset.range (gaussSize σ), gaussRaw1 σ t

/-- The notebook's `gaussian_kernel_1d(sigma)`: the normalized 1D
Gaussian reshaped to a `1 × size` row kernel. -/
noncomputable def gaussian_kernel_1d (σ : ℝ) : Arr2 ℝ :=
  ⟨1, gaussSize σ, fun _ j => gaussRaw1 σ j / gaussSum1 σ⟩

/-- The unnormalized 2D weight
`np.exp(-(xx**2 + yy**2) / (2. * sigma**2))` at grid index `(i, j)`
(`xx[i,j] = ax[j]`, `yy[i,j] = ax[i]` from `np.meshgrid(ax, ax)`). -/
noncomputable def gaussRaw2 (σ : ℝ) (i j : ℤ) : ℝ :=
  Real.exp (-(gaussAx σ j ^ 2 + gaussAx σ i ^ 2) / (2 * σ ^ 2))

/-- The `np.sum` of the unnormalized 2D kernel. -/
noncomputable def gaussSum2 (σ : ℝ) : ℝ :=
  ∑ i ∈ Finset.range (gaussSize σ), ∑ j ∈ Finset.range (gaussSize σ),
    gaussRaw2 σ i j

/-- The notebook's `gaussian_kernel_2d(sigma)`: the normalized square
2D Gaussian kernel. -/
noncomputable def gaussian_kernel_2d (σ : ℝ) : Arr2 ℝ :=
  ⟨gaussSize σ, gaussSize σ, fun i j => gaussRaw2 σ i j / gaussSum2 σ⟩

theorem ceil_ge_one {σ : ℝ} (hσ : 0 < σ) : (1 : ℤ) ≤ ⌈σ⌉ :=
  Int.ceil_pos.mpr hσ

theorem gaussSize_eq {σ : ℝ} (hσ : 0 < σ) :
    gaussSize σ = 2 * (⌈σ⌉ * 3).toNat + 1 := by
  have h := ceil_ge_one hσ
  unfold gaussSize
  omega

theorem gaussSize_pos {σ : ℝ} (hσ : 0 < σ) : 0 < gaussSize σ := by
  rw [gaussSize_eq hσ]
  omega

theorem gaussRaw1_pos (σ : ℝ) (t : ℤ) : 0 < gaussRaw1 σ t :=
  Real.exp_pos _

theorem gaussRaw2_pos (σ : ℝ) (i j : ℤ) : 0 < gaussRaw2 σ i j :=
  Real.exp_pos _

theorem gaussSum1_pos {σ : ℝ} (hσ : 0 < σ) : 0 < gaussSum1 σ :=
  Finset.sum_pos (fun t _ => gaussRaw1_pos σ t)
    (Finset.nonempty_range_iff.mpr (gaussSize_pos hσ).ne')

theorem gaussSum2_pos {σ : ℝ} (hσ : 0 < σ) : 0 < gaussSum2 σ :=
  Finset.sum_pos
    (fun i _ => Finset.sum_pos (fun j _ => gaussRaw2_pos σ i j)
      (Finset.nonempty_range_iff.mpr (gaussSize_pos hσ).ne'))
    (Finset.nonempty_range_iff.mpr (gaussSize_pos hσ).ne')

/-- Embeds `kernel_radius = np.ceil(sigma) * 3` as a natural number. -/
noncomputable def gaussR (σ : ℝ) : ℕ := (⌈σ⌉ * 3).toNat

theorem gaussSize_R {σ : ℝ} (hσ : 0 < σ) :
    gaussSize σ = 2 * gaussR σ + 1 := by
  unfold gaussR
  exact gaussSize_eq hσ

/-- The 2D Gaussian factors as the product of two 1D Gaussians (the
separability property). -/
theorem gaussRaw2_factor (σ : ℝ) (i j : ℤ) :
    gaussRaw2 σ i j = gaussRaw1 σ j * gaussRaw1 σ i := by
  unfold gaussRaw2 gaussRaw1
  rw [neg_add, add_div, Real.exp_add]

/-- The 2D normalizer is the square of the 1D normalizer. -/
theorem gaussSum2_eq (σ : ℝ) : gaussSum2 σ = gaussSum1 σ * gaussSum1 σ := by
  unfold gaussSum2 gaussSum1
  calc ∑ i ∈ Finset.range (gaussSize σ),
        ∑ j ∈ Finset.range (gaussSize σ), gaussRaw2 σ i j
      = ∑ i ∈ Finset.range (gaussSize σ),
          ∑ j ∈ Finset.range (gaussSize σ),
            gaussRaw1 σ j * gaussRaw1 σ i :=
        Finset.sum_congr rfl fun i _ =>
          Finset.sum_congr rfl fun j _ => gaussRaw2_factor σ i j
    _ = ∑ i ∈ Finset.range (gaussSize σ),
          (∑ j ∈ Finset.range (gaussSize σ), gaussRaw1 σ j)
            * gaussRaw1 σ i :=
        Finset.sum_congr rfl fun i _ => (Finset.sum_mul _ _ _).symm
    _ = _ := by rw [← Finset.mul_sum]

end GaussianKernels

/-- Claim C6: for every `σ > 0`, `gaussian_kernel_2d σ` is a square kernel
of odd side length `2·(⌈σ⌉·3) + 1` whose weights sum to exactly `1` in
exact arithmetic (hence to `1` within floating-point tolerance in the
original); the kernel is symmetric under 180° rotation
(`K[i,j] = K[size-1-i, size-1-j]` for all integer indices) and the
center weight `K[size/2, size/2]` is the maximum weight.  At `σ = 1` the
side length evaluates to `7` (see the witness). -/
theorem claim_C6 (σ : ℝ) (hσ : 0 < σ) :
    (gaussian_kernel_2d σ).kH = 2 * (⌈σ⌉ * 3).toNat + 1 ∧
      (gaussian_kernel_2d σ).kW = (gaussian_kernel_2d σ).kH ∧
      (gaussian_kernel_2d σ).kH % 2 = 1 ∧
      (∑ i ∈ Finset.range (gaussian_kernel_2d σ).kH,
          ∑ j ∈ Finset.range (gaussian_kernel_2d σ).kW,
            (gaussian_kernel_2d σ).data i j) = 1 ∧
      (∀ i j : ℤ,
        (gaussian_kernel_2d σ).data i j =
          (gaussian_kernel_2d σ).data
            (((gaussian_kernel_2d σ).kH : ℤ) - 1 - i)
            (((gaussian_kernel_2d σ).kW : ℤ) - 1 - j)) ∧
      (∀ i j : ℤ,
        (gaussian_kernel_2d σ).data i j ≤
          (gaussian_kernel_2d σ).data
            (((gaussian_kernel_2d σ).kH / 2 : ℕ) : ℤ)
            (((gaussian_kernel_2d σ).kW / 2 : ℕ) : ℤ)) := by
  have hr := ceil_ge_one hσ
  have hsize := gaussSize_eq hσ
  have hs2 := gaussSum2_pos hσ
  have h2σ : (0 : ℝ) < 2 * σ ^ 2 := by positivity
  have hax : ∀ t : ℤ, gaussAx σ (((gaussSize σ : ℕ) : ℤ) - 1 - t)
      = -(gaussAx σ t) := by
    intro t
    unfold gaussAx
    have h1 : ((gaussSize σ : ℕ) : ℤ) = ⌈σ⌉ * 3 * 2 + 1 := by
      unfold gaussSize
      omega
    rw [h1]
    push_cast
    ring
  refine ⟨hsize, rfl, ?_, ?_, ?_, ?_⟩
  · show gaussSize σ % 2 = 1
    omega
  · show (∑ i ∈ Finset.range (gaussSize σ), ∑ j ∈ Finset.range (gaussSize σ),
        gaussRaw2 σ i j / gaussSum2 σ) = 1
    have h1 : ∀ i ∈ Finset.range (gaussSize σ),
        (∑ j ∈ Finset.range (gaussSize σ), gaussRaw2 σ i j / gaussSum2 σ)
          = (∑ j ∈ Finset.range (gaussSize σ), gaussRaw2 σ i j)
              / gaussSum2 σ := fun i _ => by
      rw [Finset.sum_div]
    rw [Finset.sum_congr rfl h1, ← Finset.sum_div]
    exact div_self (ne_of_gt hs2)
  · intro i j
    show gaussRaw2 σ i j / gaussSum2 σ
      = gaussRaw2 σ (((gaussSize σ : ℕ) : ℤ) - 1 - i)
          (((gaussSize σ : ℕ) : ℤ) - 1 - j) / gaussSum2 σ
    unfold gaussRaw2
    rw [hax, hax, neg_pow, neg_pow]
    norm_num
  · intro i j
    show gaussRaw2 σ i j / gaussSum2 σ
      ≤ gaussRaw2 σ (((gaussSize σ / 2 : ℕ) : ℕ) : ℤ)
          (((gaussSize σ / 2 : ℕ) : ℕ) : ℤ) / gaussSum2 σ
    rw [div_le_div_iff_of_pos_right hs2]
    have hcenter : gaussAx σ (((gaussSize σ / 2 : ℕ) : ℕ) : ℤ) = 0 := by
      unfold gaussAx
      have h1 : ((gaussSize σ / 2 : ℕ) : ℤ) = ⌈σ⌉ * 3 := by
        unfold gaussSize
        omega
      rw [h1]
      push_cast
      ring
    unfold gaussRaw2
    rw [hcenter]
    have h2 : -((0 : ℝ) ^ 2 + 0 ^ 2) / (2 * σ ^ 2) = 0 := by
      norm_num
    rw [h2, Real.exp_zero]
    rw [Real.exp_le_one_iff]
    apply div_nonpos_of_nonpos_of_nonneg
    · have := sq_nonneg (gaussAx σ j)
      have := sq_nonneg (gaussAx σ i)
      nlinarith
    · linarith

/-- Witness for C6 at `σ = 1`: the hypothesis `0 < 1` holds and the
kernel side length evaluates to `7`. -/
theorem claim_C6_witness :
    (0 : ℝ) < 1 ∧ (gaussian_kernel_2d 1).kH = 7 := by
  have h := claim_C6 1 (by norm_num)
  refine ⟨by norm_num, ?_⟩
  rw [h.1, Int.ceil_one]
  decide

/-- Counterexample to claim C7: the claim fails as stated.  The code contains
no validation at all: `gaussian_kernel_2d (-1)` does not fail with an
`InvalidParameter` error (the embedded function is total and no error
path exists in the source); it returns exactly the degenerate zero-size
kernel the claim says is never returned (`np.arange(-(-3), -3 + 1)` is
empty). -/
theorem claim_C7_counterexample :
    (gaussian_kernel_2d (-1)).kH = 0 ∧ (gaussian_kernel_2d (-1)).kW = 0 := by
  have hceil : ⌈(-1 : ℝ)⌉ = -1 := by
    have h1 : ((-1 : ℤ) : ℝ) = (-1 : ℝ) := by norm_num
    rw [← h1, Int.ceil_intCast]
  constructor <;>
    · show (⌈(-1 : ℝ)⌉ * 3 * 2 + 1).toNat = 0
      rw [hceil]
      rfl

/-- Claim C7 as amended: the code performs no input validation.  For every
`σ ≤ -1`, `gaussian_kernel_2d` returns a `0×0` kernel and
`gaussian_kernel_1d` a `1×0` kernel, with no error raised; `convolve`
applies no kernel-dimension check (it processes a `2×2`, even-dimension
kernel, writing an ordinary value) and no shape check (it runs with an
output buffer of different shape than the input, writing the in-range
cells and leaving the rest of the oversized buffer untouched). -/
theorem claim_C7 (σ : ℝ) (hσ : σ ≤ -1) :
    (gaussian_kernel_2d σ).kH = 0 ∧ (gaussian_kernel_2d σ).kW = 0 ∧
      (gaussian_kernel_1d σ).kH = 1 ∧ (gaussian_kernel_1d σ).kW = 0 ∧
      (convolve px1Img (zerosLike 1 1 1) evenKer).data 0 0 0 = 3 ∧
      (convolve px1Img (zerosLike 2 5 5) px1Ker).data 0 0 0 = 3 ∧
      (convolve px1Img (zerosLike 2 5 5) px1Ker).data 1 2 2 = 0 := by
  have hceil : ⌈σ⌉ ≤ -1 := by
    rw [Int.ceil_le]
    push_cast
    exact hσ
  have hsize : gaussSize σ = 0 := by
    unfold gaussSize
    omega
  refine ⟨hsize, hsize, rfl, hsize, ?_, ?_, ?_⟩
  · norm_num [convolve, px1Img, evenKer, zerosLike, List.range']
  · norm_num [convolve, px1Img, px1Ker, zerosLike, List.range']
  · norm_num [convolve, px1Img, px1Ker, zerosLike, List.range']

/-- Witness for the amended C7 at `σ = -1`. -/
theorem claim_C7_witness :
    (-1 : ℝ) ≤ -1 ∧ (gaussian_kernel_2d (-1 : ℝ)).kH = 0 :=
  ⟨by norm_num, (claim_C7 (-1) (by norm_num)).1⟩

/-- Claim C1: for every image of shape `(C,H,W)`, output buffer of the
same shape, and kernel of odd dimensions, `convolve` writes into every
in-range cell `(c,y,x)` the sum over the clamped neighborhood
`u ∈ [x_min, x_max]`, `v ∈ [y_min, y_max]` of
`input[c,v,u] * kernel[v-y+kH/2, u-x+kW/2]`, divided by the sum of those
same kernel weights, where `x_min = max(0, x - kW/2)` (truncated ℕ
subtraction), `x_max = min(W-1, x + kW/2)`, and similarly for `y`. -/
theorem claim_C1 {F : Type} [Field F] (image output : Arr3 F)
    (kernel : Arr2 F)
    (hshape : output.C = image.C ∧ output.H = image.H ∧ output.W = image.W)
    (hodd_h : kernel.kH % 2 = 1) (hodd_w : kernel.kW % 2 = 1)
    (c y x : ℕ) (hc : c < image.C) (hy : y < image.H) (hx : x < image.W) :
    (convolve image output kernel).data c y x =
      (∑ u ∈ Finset.Icc (x - kernel.kW / 2)
            (min (image.W - 1) (x + kernel.kW / 2)),
          ∑ v ∈ Finset.Icc (y - kernel.kH / 2)
            (min (image.H - 1) (y + kernel.kH / 2)),
            image.data c v u * tapWeight kernel y x v u) /
      (∑ u ∈ Finset.Icc (x - kernel.kW / 2)
            (min (image.W - 1) (x + kernel.kW / 2)),
          ∑ v ∈ Finset.Icc (y - kernel.kH / 2)
            (min (image.H - 1) (y + kernel.kH / 2)),
            tapWeight kernel y x v u) :=
  convolve_data_eq_sum image output kernel c y x hc hy hx

/-- Witness for C1 at a concrete input: a `1×1×1` image with value `3`,
a `1×1` kernel with weight `2`. -/
theorem claim_C1_witness :
    ((zerosLike 1 1 1 : Arr3 ℚ).C = px1Img.C ∧
        (zerosLike 1 1 1 : Arr3 ℚ).H = px1Img.H ∧
        (zerosLike 1 1 1 : Arr3 ℚ).W = px1Img.W) ∧
      px1Ker.kH % 2 = 1 ∧ px1Ker.kW % 2 = 1 ∧
      0 < px1Img.C ∧ 0 < px1Img.H ∧ 0 < px1Img.W ∧
      (convolve px1Img (zerosLike 1 1 1) px1Ker).data 0 0 0 =
        (∑ u ∈ Finset.Icc (0 - px1Ker.kW / 2)
              (min (px1Img.W - 1) (0 + px1Ker.kW / 2)),
            ∑ v ∈ Finset.Icc (0 - px1Ker.kH / 2)
              (min (px1Img.H - 1) (0 + px1Ker.kH / 2)),
              px1Img.data 0 v u * tapWeight px1Ker 0 0 v u) /
        (∑ u ∈ Finset.Icc (0 - px1Ker.kW / 2)
              (min (px1Img.W - 1) (0 + px1Ker.kW / 2)),
            ∑ v ∈ Finset.Icc (0 - px1Ker.kH / 2)
              (min (px1Img.H - 1) (0 + px1Ker.kH / 2)),
              tapWeight px1Ker 0 0 v u) :=
  ⟨⟨rfl, rfl, rfl⟩, by decide, by decide, by decide, by decide, by decide,
    claim_C1 px1Img (zerosLike 1 1 1) px1Ker ⟨rfl, rfl, rfl⟩
      (by decide) (by decide) 0 0 0 (by decide) (by decide) (by decide)⟩

/-- Claim C3: for every input image and every odd-dimension kernel with
non-negative in-range weights and positive center weight (every Gaussian
kernel is of this form), each value `convolve` writes lies between any
lower bound and any upper bound of the input values — in particular
between the global minimum and maximum of the input — because the
output is a weighted average with non-negative weights whose total is
strictly positive at every position (the center tap is always within
image bounds). -/
theorem claim_C3 {F : Type} [LinearOrderedField F] (image output : Arr3 F)
    (kernel : Arr2 F)
    (hodd_h : kernel.kH % 2 = 1) (hodd_w : kernel.kW % 2 = 1)
    (hnn : ∀ i j : ℤ, 0 ≤ i → i < (kernel.kH : ℤ) → 0 ≤ j →
      j < (kernel.kW : ℤ) → 0 ≤ kernel.data i j)
    (hcenter : 0 < kernel.data (kernel.kH / 2 : ℕ) (kernel.kW / 2 : ℕ))
    (lo hi : F)
    (hbound : ∀ c y x, c < image.C → y < image.H → x < image.W →
      lo ≤ image.data c y x ∧ image.data c y x ≤ hi)
    (c y x : ℕ) (hc : c < image.C) (hy : y < image.H) (hx : x < image.W) :
    lo ≤ (convolve image output kernel).data c y x ∧
      (convolve image output kernel).data c y x ≤ hi := by
  rw [convolve_data_eq_sum image output kernel c y x hc hy hx]
  have htot := convolve_total_pos image kernel hodd_h hodd_w hnn hcenter
    y x hy hx
  have htap : ∀ u ∈ Finset.Icc (x - kernel.kW / 2)
      (min (image.W - 1) (x + kernel.kW / 2)),
      ∀ v ∈ Finset.Icc (y - kernel.kH / 2)
        (min (image.H - 1) (y + kernel.kH / 2)),
      0 ≤ tapWeight kernel y x v u ∧
        lo ≤ image.data c v u ∧ image.data c v u ≤ hi := by
    intro u hu v hv
    rw [Finset.mem_Icc] at hu hv
    have hu2 := le_trans hu.2 (min_le_right _ _)
    have hv2 := le_trans hv.2 (min_le_right _ _)
    have hu3 : u < image.W := by
      have := le_trans hu.2 (min_le_left _ _)
      omega
    have hv3 : v < image.H := by
      have := le_trans hv.2 (min_le_left _ _)
      omega
    exact ⟨tapWeight_nonneg kernel hodd_h hodd_w hnn y x v u hv.1 hv2
        hu.1 hu2,
      hbound c v u hc hv3 hu3⟩
  constructor
  · rw [le_div_iff htot]
    calc lo * ∑ u ∈ _, ∑ v ∈ _, tapWeight kernel y x v u
        = ∑ u ∈ _, ∑ v ∈ _, lo * tapWeight kernel y x v u := by
          rw [Finset.mul_sum]
          exact Finset.sum_congr rfl fun u _ => Finset.mul_sum _ _ _
      _ ≤ _ := by
          refine Finset.sum_le_sum fun u hu => ?_
          refine Finset.sum_le_sum fun v hv => ?_
          obtain ⟨h0, h1, _⟩ := htap u hu v hv
          exact mul_le_mul_of_nonneg_right h1 h0
  · rw [div_le_iff htot]
    calc (∑ u ∈ _, ∑ v ∈ _, image.data c v u * tapWeight kernel y x v u)
        ≤ ∑ u ∈ _, ∑ v ∈ _, hi * tapWeight kernel y x v u := by
          refine Finset.sum_le_sum fun u hu => ?_
          refine Finset.sum_le_sum fun v hv => ?_
          obtain ⟨h0, _, h2⟩ := htap u hu v hv
          exact mul_le_mul_of_nonneg_right h2 h0
      _ = hi * ∑ u ∈ _, ∑ v ∈ _, tapWeight kernel y x v u := by
          rw [Finset.mul_sum]
          exact Finset.sum_congr rfl fun u _ => (Finset.mul_sum _ _ _).symm

/-- Counterexample to claim C4: the claim fails as stated.  `badKer` is a
normalized `3×1` kernel (weights `1, 0, 0` sum to `1`) but its center
weight is `0`; on a `1×1` constant image with value `1` only the center
tap is used, so the accumulated total is `0` and the written value is
`0/0`, which is not the constant `1`.  (The floating-point code writes
`NaN` there; the exact-field model writes `0`; either way the output is
not the constant image.) -/
theorem claim_C4_counterexample :
    (∑ i ∈ Finset.range 3, ∑ j ∈ Finset.range 1,
        badKer.data (i : ℕ) (j : ℕ)) = 1 ∧
      badKer.kH % 2 = 1 ∧ badKer.kW % 2 = 1 ∧
      (convolve constImg (zerosLike 1 1 1) badKer).data 0 0 0 ≠ 1 := by
  refine ⟨?_, by decide, by decide, ?_⟩
  · simp [badKer, Finset.sum_range_succ]
  · norm_num [convolve, constImg, badKer, zerosLike, List.range']

/-- Claim C4 as amended: convolving a constant-valued image (all in-range
pixels equal to `k`) with any odd-dimension kernel whose weights are
non-negative with a positive center weight (normalization is not needed:
the per-pixel renormalization divides by the used-weight total) yields
the constant `k` at every in-range position, boundary positions
included. -/
theorem claim_C4 {F : Type} [LinearOrderedField F] (image output : Arr3 F)
    (kernel : Arr2 F) (k : F)
    (hodd_h : kernel.kH % 2 = 1) (hodd_w : kernel.kW % 2 = 1)
    (hnn : ∀ i j : ℤ, 0 ≤ i → i < (kernel.kH : ℤ) → 0 ≤ j →
      j < (kernel.kW : ℤ) → 0 ≤ kernel.data i j)
    (hcenter : 0 < kernel.data (kernel.kH / 2 : ℕ) (kernel.kW / 2 : ℕ))
    (hconst : ∀ c y x, c < image.C → y < image.H → x < image.W →
      image.data c y x = k)
    (c y x : ℕ) (hc : c < image.C) (hy : y < image.H) (hx : x < image.W) :
    (convolve image output kernel).data c y x = k := by
  rw [convolve_data_eq_sum image output kernel c y x hc hy hx]
  have htot := convolve_total_pos image kernel hodd_h hodd_w hnn hcenter
    y x hy hx
  have hval : (∑ u ∈ Finset.Icc (x - kernel.kW / 2)
        (min (image.W - 1) (x + kernel.kW / 2)),
      ∑ v ∈ Finset.Icc (y - kernel.kH / 2)
        (min (image.H - 1) (y + kernel.kH / 2)),
        image.data c v u * tapWeight kernel y x v u)
      = k * ∑ u ∈ Finset.Icc (x - kernel.kW / 2)
        (min (image.W - 1) (x + kernel.kW / 2)),
      ∑ v ∈ Finset.Icc (y - kernel.kH / 2)
        (min (image.H - 1) (y + kernel.kH / 2)),
        tapWeight kernel y x v u := by
    rw [Finset.mul_sum]
    refine Finset.sum_congr rfl fun u hu => ?_
    rw [Finset.mul_sum]
    refine Finset.sum_congr rfl fun v hv => ?_
    rw [Finset.mem_Icc] at hu hv
    have hu3 : u < image.W := by
      have := le_trans hu.2 (min_le_left _ _)
      omega
    have hv3 : v < image.H := by
      have := le_trans hv.2 (min_le_left _ _)
      omega
    rw [hconst c v u hc hv3 hu3]
  rw [hval, mul_div_assoc, div_self (ne_of_gt htot), mul_one]

/-- Witness for the amended C4: the `1×1×1` constant image with value
`1` and the column kernel with weights `1, 2, 1`. -/
theorem claim_C4_witness :
    colKer.kH % 2 = 1 ∧ colKer.kW % 2 = 1 ∧
      0 < colKer.data (colKer.kH / 2 : ℕ) (colKer.kW / 2 : ℕ) ∧
      (convolve constImg (zerosLike 1 1 1) colKer).data 0 0 0 = 1 :=
  ⟨by decide, by decide, by norm_num [colKer],
    claim_C4 constImg (zerosLike 1 1 1) colKer 1 (by decide) (by decide)
      (fun i j _ _ _ _ => by
        simp only [colKer]
        split <;> norm_num)
      (by norm_num [colKer])
      (fun c y x _ _ _ => by norm_num [constImg])
      0 0 0 (by decide) (by decide) (by decide)⟩

/-- Counterexample to claim C5: the claim fails as stated.  `colImg` is a
1-pixel-wide image (a single column `0, 1, 0`) and `colKer` a `3×1`
column kernel with weights `1, 2, 1`; at the middle row three vertical
taps contribute, so the output `(0·1 + 1·2 + 0·1)/4 = 1/2` differs from
the input value `1`. -/
theorem claim_C5_counterexample :
    colImg.W = 1 ∧
      (convolve colImg (zerosLike 1 3 1) colKer).data 0 1 0 ≠
        colImg.data 0 1 0 := by
  refine ⟨rfl, ?_⟩
  norm_num [convolve, colImg, colKer, zerosLike, List.range']

/-- Claim C5 as amended: for a 1-pixel-wide image and a kernel with a
single row (height `1`, as the 1D row-pass Gaussian kernel is) whose
center-column weight `kernel[0, kW/2]` is nonzero, the single column's
output equals the input column exactly: only that one tap contributes,
and renormalization by the tap's own weight returns the input value. -/
theorem claim_C5 {F : Type} [Field F] (image output : Arr3 F)
    (kernel : Arr2 F)
    (hW : image.W = 1) (hkH : kernel.kH = 1)
    (hcw : kernel.data 0 ((kernel.kW / 2 : ℕ) : ℤ) ≠ 0)
    (c y : ℕ) (hc : c < image.C) (hy : y < image.H) :
    (convolve image output kernel).data c y 0 = image.data c y 0 := by
  rw [convolve_data_eq_sum image output kernel c y 0 hc hy (by omega)]
  have h1 : (0 : ℕ) - kernel.kW / 2 = 0 := by omega
  have h2 : min (image.W - 1) (0 + kernel.kW / 2) = 0 := by
    rw [hW]
    simp
  have h3 : y - kernel.kH / 2 = y := by
    rw [hkH]
    omega
  have h4 : min (image.H - 1) (y + kernel.kH / 2) = y := by
    have h5 : y + kernel.kH / 2 = y := by
      rw [hkH]
      omega
    rw [h5]
    exact min_eq_right (by omega)
  rw [h1, h2, h3, h4, Finset.Icc_self, Finset.Icc_self]
  simp only [Finset.sum_singleton]
  have h6 : tapWeight kernel y 0 y 0
      = kernel.data 0 ((kernel.kW / 2 : ℕ) : ℤ) := by
    simp [tapWeight, hkH]
  rw [h6]
  exact mul_div_cancel_right₀ _ hcw

/-- Witness for the amended C5: the single-column image `0, 1, 0` and a
`1×3` row kernel with weights `1, 2, 1`. -/
theorem claim_C5_witness :
    colImg.W = 1 ∧ rowKer.kH = 1 ∧
      rowKer.data 0 ((rowKer.kW / 2 : ℕ) : ℤ) ≠ 0 ∧
      (convolve colImg (zerosLike 1 3 1) rowKer).data 0 1 0 =
        colImg.data 0 1 0 :=
  ⟨rfl, rfl, by norm_num [rowKer],
    claim_C5 colImg (zerosLike 1 3 1) rowKer rfl rfl
      (by norm_num [rowKer]) 0 1 (by decide) (by decide)⟩

section Pipeline

/-- The compute core of the notebook's
`main(input_file, output_file, sigma, seperate_filters)` between decode
and encode, applied to the decoded image `img`: allocate
`output = np.zeros(img.shape)`; when `not seperate_filters`, convolve
with the 2D kernel; otherwise allocate a fresh
`intermediate = np.zeros(img.shape)`, convolve `img` into it with the 1D
row kernel, then convolve the (now half-convolved) intermediate into
`output` with the transposed 1D kernel.  Returns the final contents of
`output`. -/
noncomputable def mainCompute (img : Arr3 ℝ) (σ : ℝ)
    (seperate_filters : Bool) : Arr3 ℝ :=
  let output : Arr3 ℝ := zerosLike img.C img.H img.W
  if !seperate_filters then
    let kernel_2d := gaussian_kernel_2d σ
    convolve img output kernel_2d
  else
    let kernel_1d := gaussian_kernel_1d σ
    let intermediate : Arr3 ℝ := zerosLike img.C img.H img.W
    let half := convolve img intermediate kernel_1d
    convolve half output kernel_1d.transpose

/-- The state of the caller's buffer after `write_image(img, path)`: the
source executes `img *= 255` in place (the subsequent
`img = img.transpose(1,2,0).astype(np.uint8)` only rebinds the local
name), so the caller's array holds the 255-scaled samples. -/
def write_image_buffer {F : Type} [Field F] (img : Arr3 F) : Arr3 F :=
  { img with data := fun c y x => img.data c y x * 255 }

/-- Truncation toward zero of a rational number (the C-style
float→integer conversion). -/
def ratTrunc (v : ℚ) : ℤ := if 0 ≤ v then ⌊v⌋ else -⌊-v⌋

/-- Modelled from the behavior of numpy's `.astype(np.uint8)` on float
input (`write_image`'s cast): a C-style conversion that truncates toward
zero and keeps the low 8 bits, i.e. reduces modulo 2^8.  It does not
clamp. -/
def astype_uint8 (v : ℚ) : ℤ := ratTrunc v % 256

/-- The 8-bit sample value `write_image` stores for an input sample `v`:
the buffer is first scaled in place (`img *= 255`), then cast to uint8. -/
def encodeSample (v : ℚ) : ℤ := astype_uint8 (v * 255)

section Interior

/-- A clamped neighborhood sum with full kernel support (interior
position) reindexed over `range (2R+1)`. -/
theorem sum_Icc_clamped_interior (f : ℕ → ℝ) (a R W : ℕ)
    (h1 : R ≤ a) (h2 : a + R < W) :
    ∑ u ∈ Finset.Icc (a - R) (min (W - 1) (a + R)), f u
      = ∑ t ∈ Finset.range (2 * R + 1), f (a - R + t) := by
  rw [min_eq_right (by omega), ← Nat.Ico_succ_right,
    Finset.sum_Ico_eq_sum_range]
  have h3 : a + R + 1 - (a - R) = 2 * R + 1 := by omega
  rw [h3]

/-- Cast arithmetic for the kernel tap index at an interior position. -/
theorem shift_cast (a R t : ℕ) (h : R ≤ a) :
    ((a - R + t : ℕ) : ℤ) - (a : ℤ) + ((R : ℕ) : ℤ) = (t : ℤ) := by
  omega

/-- The 1D kernel weights of a full-support row sum to `1`. -/
theorem gauss1_norm {σ : ℝ} (hσ : 0 < σ) :
    ∑ t ∈ Finset.range (2 * gaussR σ + 1),
      gaussRaw1 σ t / gaussSum1 σ = 1 := by
  rw [← gaussSize_R hσ, ← Finset.sum_div]
  exact div_self (gaussSum1_pos hσ).ne'

/-- At an interior position, a tap of the 2D Gaussian kernel factors
into the product of the two 1D kernel weights. -/
theorem tap2_interior (σ : ℝ) (hσ : 0 < σ) (y x s t : ℕ)
    (hy1 : gaussR σ ≤ y) (hx1 : gaussR σ ≤ x) :
    tapWeight (gaussian_kernel_2d σ) y x (y - gaussR σ + s)
        (x - gaussR σ + t)
      = (gaussRaw1 σ t / gaussSum1 σ) * (gaussRaw1 σ s / gaussSum1 σ) := by
  unfold tapWeight
  have hhH : (gaussian_kernel_2d σ).kH / 2 = gaussR σ := by
    show gaussSize σ / 2 = gaussR σ
    have h := gaussSize_R hσ
    omega
  have hhW : (gaussian_kernel_2d σ).kW / 2 = gaussR σ := by
    show gaussSize σ / 2 = gaussR σ
    have h := gaussSize_R hσ
    omega
  rw [hhH, hhW, shift_cast y (gaussR σ) s hy1, shift_cast x (gaussR σ) t hx1]
  show gaussRaw2 σ s t / gaussSum2 σ = _
  rw [gaussRaw2_factor, gaussSum2_eq, div_mul_div_comm]

/-- A tap of the 1D row kernel in the first (row) pass. -/
theorem tap1_interior (σ : ℝ) (hσ : 0 < σ) (v x t : ℕ)
    (hx1 : gaussR σ ≤ x) :
    tapWeight (gaussian_kernel_1d σ) v x v (x - gaussR σ + t)
      = gaussRaw1 σ t / gaussSum1 σ := by
  unfold tapWeight
  have h1 : (gaussian_kernel_1d σ).kH / 2 = 0 := by
    show (1 : ℕ) / 2 = 0
    decide
  have h2 : (gaussian_kernel_1d σ).kW / 2 = gaussR σ := by
    show gaussSize σ / 2 = gaussR σ
    have h := gaussSize_R hσ
    omega
  rw [h1, h2, shift_cast x (gaussR σ) t hx1]
  rfl

/-- A tap of the transposed 1D kernel in the second (column) pass. -/
theorem tapT_interior (σ : ℝ) (hσ : 0 < σ) (y x s : ℕ)
    (hy1 : gaussR σ ≤ y) :
    tapWeight (gaussian_kernel_1d σ).transpose y x (y - gaussR σ + s) x
      = gaussRaw1 σ s / gaussSum1 σ := by
  unfold tapWeight
  have h1 : (gaussian_kernel_1d σ).transpose.kH / 2 = gaussR σ := by
    show gaussSize σ / 2 = gaussR σ
    have h := gaussSize_R hσ
    omega
  have h2 : (gaussian_kernel_1d σ).transpose.kW / 2 = 0 := by
    show (1 : ℕ) / 2 = 0
    decide
  rw [h1, h2, shift_cast y (gaussR σ) s hy1]
  rfl

/-- Joint mode at an interior position: the 2D convolution is the double
sum of the image against the product of 1D Gaussian weights (the
per-pixel total is exactly `1` there). -/
theorem joint_interior (img out : Arr3 ℝ) (σ : ℝ) (hσ : 0 < σ)
    (c y x : ℕ) (hc : c < img.C)
    (hy1 : gaussR σ ≤ y) (hy2 : y + gaussR σ < img.H)
    (hx1 : gaussR σ ≤ x) (hx2 : x + gaussR σ < img.W) :
    (convolve img out (gaussian_kernel_2d σ)).data c y x
      = ∑ t ∈ Finset.range (2 * gaussR σ + 1),
          ∑ s ∈ Finset.range (2 * gaussR σ + 1),
            img.data c (y - gaussR σ + s) (x - gaussR σ + t)
              * ((gaussRaw1 σ t / gaussSum1 σ)
                  * (gaussRaw1 σ s / gaussSum1 σ)) := by
  have hy' : y < img.H := by omega
  have hx' : x < img.W := by omega
  rw [convolve_data_eq_sum img out (gaussian_kernel_2d σ) c y x hc hy' hx']
  have hhH : (gaussian_kernel_2d σ).kH / 2 = gaussR σ := by
    show gaussSize σ / 2 = gaussR σ
    have h := gaussSize_R hσ
    omega
  have hhW : (gaussian_kernel_2d σ).kW / 2 = gaussR σ := by
    show gaussSize σ / 2 = gaussR σ
    have h := gaussSize_R hσ
    omega
  rw [hhH, hhW]
  rw [sum_Icc_clamped_interior
    (fun u => ∑ v ∈ Finset.Icc (y - gaussR σ)
        (min (img.H - 1) (y + gaussR σ)),
      img.data c v u * tapWeight (gaussian_kernel_2d σ) y x v u)
    x (gaussR σ) img.W hx1 hx2]
  rw [sum_Icc_clamped_interior
    (fun u => ∑ v ∈ Finset.Icc (y - gaussR σ)
        (min (img.H - 1) (y + gaussR σ)),
      tapWeight (gaussian_kernel_2d σ) y x v u)
    x (gaussR σ) img.W hx1 hx2]
  have hnum : ∀ t ∈ Finset.range (2 * gaussR σ + 1),
      (∑ v ∈ Finset.Icc (y - gaussR σ) (min (img.H - 1) (y + gaussR σ)),
        img.data c v (x - gaussR σ + t)
          * tapWeight (gaussian_kernel_2d σ) y x v (x - gaussR σ + t))
      = ∑ s ∈ Finset.range (2 * gaussR σ + 1),
          img.data c (y - gaussR σ + s) (x - gaussR σ + t)
            * ((gaussRaw1 σ t / gaussSum1 σ)
                * (gaussRaw1 σ s / gaussSum1 σ)) := by
    intro t _
    rw [sum_Icc_clamped_interior
      (fun v => img.data c v (x - gaussR σ + t)
        * tapWeight (gaussian_kernel_2d σ) y x v (x - gaussR σ + t))
      y (gaussR σ) img.H hy1 hy2]
    exact Finset.sum_congr rfl fun s _ => by
      rw [tap2_interior σ hσ y x s t hy1 hx1]
  have hden : ∀ t ∈ Finset.range (2 * gaussR σ + 1),
      (∑ v ∈ Finset.Icc (y - gaussR σ) (min (img.H - 1) (y + gaussR σ)),
        tapWeight (gaussian_kernel_2d σ) y x v (x - gaussR σ + t))
      = (gaussRaw1 σ t / gaussSum1 σ)
          * ∑ s ∈ Finset.range (2 * gaussR σ + 1),
              gaussRaw1 σ s / gaussSum1 σ := by
    intro t _
    rw [sum_Icc_clamped_interior
      (fun v => tapWeight (gaussian_kernel_2d σ) y x v (x - gaussR σ + t))
      y (gaussR σ) img.H hy1 hy2]
    rw [Finset.mul_sum]
    exact Finset.sum_congr rfl fun s _ => by
      rw [tap2_interior σ hσ y x s t hy1 hx1]
  rw [Finset.sum_congr rfl hnum, Finset.sum_congr rfl hden]
  have htotal : (∑ t ∈ Finset.range (2 * gaussR σ + 1),
      (gaussRaw1 σ t / gaussSum1 σ)
        * ∑ s ∈ Finset.range (2 * gaussR σ + 1),
            gaussRaw1 σ s / gaussSum1 σ) = 1 := by
    rw [gauss1_norm hσ]
    simp only [mul_one]
    exact gauss1_norm hσ
  rw [htotal, div_one]

/-- The first (row) pass at a horizontally interior position: a
1D horizontal weighted sum with total `1`. -/
theorem pass1_interior (img inter0 : Arr3 ℝ) (σ : ℝ) (hσ : 0 < σ)
    (c v x : ℕ) (hc : c < img.C) (hv : v < img.H)
    (hx1 : gaussR σ ≤ x) (hx2 : x + gaussR σ < img.W) :
    (convolve img inter0 (gaussian_kernel_1d σ)).data c v x
      = ∑ t ∈ Finset.range (2 * gaussR σ + 1),
          img.data c v (x - gaussR σ + t)
            * (gaussRaw1 σ t / gaussSum1 σ) := by
  have hx' : x < img.W := by omega
  rw [convolve_data_eq_sum img inter0 (gaussian_kernel_1d σ) c v x hc hv hx']
  have h1 : (gaussian_kernel_1d σ).kH / 2 = 0 := by
    show (1 : ℕ) / 2 = 0
    decide
  have h2 : (gaussian_kernel_1d σ).kW / 2 = gaussR σ := by
    show gaussSize σ / 2 = gaussR σ
    have h := gaussSize_R hσ
    omega
  rw [h1, h2, Nat.sub_zero, Nat.add_zero,
    min_eq_right (show v ≤ img.H - 1 by omega), Finset.Icc_self]
  simp only [Finset.sum_singleton]
  rw [sum_Icc_clamped_interior
    (fun u => img.data c v u * tapWeight (gaussian_kernel_1d σ) v x v u)
    x (gaussR σ) img.W hx1 hx2]
  rw [sum_Icc_clamped_interior
    (fun u => tapWeight (gaussian_kernel_1d σ) v x v u)
    x (gaussR σ) img.W hx1 hx2]
  have hden : (∑ t ∈ Finset.range (2 * gaussR σ + 1),
      tapWeight (gaussian_kernel_1d σ) v x v (x - gaussR σ + t)) = 1 := by
    rw [Finset.sum_congr rfl fun t _ => tap1_interior σ hσ v x t hx1]
    exact gauss1_norm hσ
  rw [hden, div_one]
  exact Finset.sum_congr rfl fun t _ => by
    rw [tap1_interior σ hσ v x t hx1]

/-- Separable mode at an interior position equals the same double sum
as joint mode: the column pass reads full-support rows of the
intermediate, each itself a full-support row sum of the input. -/
theorem sep_interior (img : Arr3 ℝ) (σ : ℝ) (hσ : 0 < σ)
    (c y x : ℕ) (hc : c < img.C)
    (hy1 : gaussR σ ≤ y) (hy2 : y + gaussR σ < img.H)
    (hx1 : gaussR σ ≤ x) (hx2 : x + gaussR σ < img.W) :
    (mainCompute img σ true).data c y x
      = ∑ t ∈ Finset.range (2 * gaussR σ + 1),
          ∑ s ∈ Finset.range (2 * gaussR σ + 1),
            img.data c (y - gaussR σ + s) (x - gaussR σ + t)
              * ((gaussRaw1 σ t / gaussSum1 σ)
                  * (gaussRaw1 σ s / gaussSum1 σ)) := by
  have hy' : y < img.H := by omega
  have hx' : x < img.W := by omega
  have hmain : mainCompute img σ true
      = convolve
          (convolve img (zerosLike img.C img.H img.W) (gaussian_kernel_1d σ))
          (zerosLike img.C img.H img.W) (gaussian_kernel_1d σ).transpose :=
    rfl
  rw [hmain]
  rw [convolve_data_eq_sum
    (convolve img (zerosLike img.C img.H img.W) (gaussian_kernel_1d σ))
    (zerosLike img.C img.H img.W) (gaussian_kernel_1d σ).transpose
    c y x hc hy' hx']
  have h1 : (gaussian_kernel_1d σ).transpose.kH / 2 = gaussR σ := by
    show gaussSize σ / 2 = gaussR σ
    have h := gaussSize_R hσ
    omega
  have h2 : (gaussian_kernel_1d σ).transpose.kW / 2 = 0 := by
    show (1 : ℕ) / 2 = 0
    decide
  rw [h1, h2, Nat.sub_zero, Nat.add_zero]
  have hWeq : (convolve img (zerosLike img.C img.H img.W)
      (gaussian_kernel_1d σ)).W = img.W := rfl
  have hHeq : (convolve img (zerosLike img.C img.H img.W)
      (gaussian_kernel_1d σ)).H = img.H := rfl
  rw [hWeq, hHeq, min_eq_right (show x ≤ img.W - 1 by omega),
    Finset.Icc_self]
  simp only [Finset.sum_singleton]
  rw [sum_Icc_clamped_interior
    (fun v => (convolve img (zerosLike img.C img.H img.W)
        (gaussian_kernel_1d σ)).data c v x
      * tapWeight (gaussian_kernel_1d σ).transpose y x v x)
    y (gaussR σ) img.H hy1 hy2]
  rw [sum_Icc_clamped_interior
    (fun v => tapWeight (gaussian_kernel_1d σ).transpose y x v x)
    y (gaussR σ) img.H hy1 hy2]
  have hden : (∑ s ∈ Finset.range (2 * gaussR σ + 1),
      tapWeight (gaussian_kernel_1d σ).transpose y x
        (y - gaussR σ + s) x) = 1 := by
    rw [Finset.sum_congr rfl fun s _ => tapT_interior σ hσ y x s hy1]
    exact gauss1_norm hσ
  rw [hden, div_one]
  have hnum : ∀ s ∈ Finset.range (2 * gaussR σ + 1),
      (convolve img (zerosLike img.C img.H img.W)
          (gaussian_kernel_1d σ)).data c (y - gaussR σ + s) x
        * tapWeight (gaussian_kernel_1d σ).transpose y x
            (y - gaussR σ + s) x
      = ∑ t ∈ Finset.range (2 * gaussR σ + 1),
          img.data c (y - gaussR σ + s) (x - gaussR σ + t)
            * ((gaussRaw1 σ t / gaussSum1 σ)
                * (gaussRaw1 σ s / gaussSum1 σ)) := by
    intro s hs
    rw [Finset.mem_range] at hs
    have hvin : y - gaussR σ + s < img.H := by omega
    rw [pass1_interior img (zerosLike img.C img.H img.W) σ hσ c
        (y - gaussR σ + s) x hc hvin hx1 hx2,
      tapT_interior σ hσ y x s hy1, Finset.sum_mul]
    exact Finset.sum_congr rfl fun t _ => by ring
  rw [Finset.sum_congr rfl hnum]
  exact Finset.sum_comm

end Interior

/-- A real-valued 1-channel `7×7` image, all samples `0`: large enough
to contain a fully-supported interior pixel for `σ = 1` (radius 3). -/
noncomputable def rBig : Arr3 ℝ := ⟨1, 7, 7, fun _ _ _ => 0⟩

/-- A real-valued `1×1×1` image holding `0`. -/
noncomputable def rImg : Arr3 ℝ := ⟨1, 1, 1, fun _ _ _ => 0⟩

/-- A real-valued `1×1×1` buffer holding `5` (a dirty buffer used to
check that prior output contents are irrelevant). -/
noncomputable def rAlt : Arr3 ℝ := ⟨1, 1, 1, fun _ _ _ => 5⟩

/-- A real-valued `1×1` kernel with weight `1`. -/
noncomputable def rKer : Arr2 ℝ := ⟨1, 1, fun _ _ => 1⟩

end Pipeline

/-- Claim C2: for a Gaussian kernel at any `σ > 0`, the pipeline's joint
mode (one `convolve` with the 2D kernel) and separable mode (row pass
into a fresh intermediate, then column pass with the transposed 1D
kernel) agree within the tolerance `1/1000` at every position away from
the image edges (full kernel support on both axes).  In the exact-real
model the two modes are equal there — the per-pixel totals are exactly
`1` and the 2D Gaussian factors into the product of the 1D kernels — so
the difference is `0 < 1/1000`; the floating-point code additionally
incurs summation-order rounding, which is why the claim asks only for a
small tolerance rather than bit-identical outputs. -/
theorem claim_C2 (img : Arr3 ℝ) (σ : ℝ) (hσ : 0 < σ) (c y x : ℕ)
    (hc : c < img.C)
    (hy1 : gaussR σ ≤ y) (hy2 : y + gaussR σ < img.H)
    (hx1 : gaussR σ ≤ x) (hx2 : x + gaussR σ < img.W) :
    |(mainCompute img σ false).data c y x
      - (mainCompute img σ true).data c y x| < 1 / 1000 := by
  have hjoint : mainCompute img σ false
      = convolve img (zerosLike img.C img.H img.W) (gaussian_kernel_2d σ) :=
    rfl
  rw [hjoint,
    joint_interior img (zerosLike img.C img.H img.W) σ hσ c y x hc
      hy1 hy2 hx1 hx2,
    sep_interior img σ hσ c y x hc hy1 hy2 hx1 hx2,
    sub_self, abs_zero]
  norm_num

/-- Witness for C2 at `σ = 1` on a `7×7` zero image, at the interior
pixel `(3,3)`. -/
theorem claim_C2_witness :
    (0 : ℝ) < 1 ∧ gaussR 1 ≤ 3 ∧ 3 + gaussR 1 < rBig.H ∧
      3 + gaussR 1 < rBig.W ∧ 0 < rBig.C ∧
      |(mainCompute rBig 1 false).data 0 3 3
        - (mainCompute rBig 1 true).data 0 3 3| < 1 / 1000 := by
  have hg : gaussR (1 : ℝ) = 3 := by
    unfold gaussR
    rw [Int.ceil_one]
    decide
  refine ⟨by norm_num, by rw [hg], ?_, ?_, by decide, ?_⟩
  · rw [hg]
    decide
  · rw [hg]
    decide
  · exact claim_C2 rBig 1 (by norm_num) 0 3 3 (by decide)
      (by rw [hg]) (by rw [hg]; decide) (by rw [hg]) (by rw [hg]; decide)

/-- Claim C8: no `convolve` invocation writes into a buffer it also reads:
(1) every in-range cell of the result is independent of the prior
contents of the output buffer — `convolve` never reads the buffer it
writes; (2) cells outside the image footprint are left exactly as they
were — `convolve` writes only the output cells of the loop nest; and
(3) in separable mode the pipeline feeds the second pass from the
intermediate produced by the first pass (never from the final output
buffer and never reusing the input's storage), so the pipeline's result
is unchanged if the intermediate and output buffers start with arbitrary
contents of the right shape. -/
theorem claim_C8 (img o₁ o₂ inter0 out0 : Arr3 ℝ) (k : Arr2 ℝ) (σ : ℝ)
    (hC : inter0.C = img.C) (hH : inter0.H = img.H) (hW : inter0.W = img.W) :
    (∀ c y x, c < img.C → y < img.H → x < img.W →
      (convolve img o₁ k).data c y x = (convolve img o₂ k).data c y x) ∧
    (∀ c y x, ¬(c < img.C ∧ y < img.H ∧ x < img.W) →
      (convolve img o₁ k).data c y x = o₁.data c y x) ∧
    (∀ c y x, c < img.C → y < img.H → x < img.W →
      (convolve (convolve img inter0 (gaussian_kernel_1d σ)) out0
          (gaussian_kernel_1d σ).transpose).data c y x
        = (mainCompute img σ true).data c y x) := by
  refine ⟨fun c y x hc hy hx =>
      convolve_data_indep img o₁ o₂ k c y x hc hy hx,
    fun c y x h => convolve_data_frame img o₁ k c y x h, ?_⟩
  intro c y x hc hy hx
  have hmain : mainCompute img σ true
      = convolve
          (convolve img (zerosLike img.C img.H img.W) (gaussian_kernel_1d σ))
          (zerosLike img.C img.H img.W) (gaussian_kernel_1d σ).transpose :=
    rfl
  rw [hmain]
  have hcongr : convolve (convolve img inter0 (gaussian_kernel_1d σ)) out0
        (gaussian_kernel_1d σ).transpose
      = convolve
          (convolve img (zerosLike img.C img.H img.W) (gaussian_kernel_1d σ))
          out0 (gaussian_kernel_1d σ).transpose := by
    refine convolve_congr_image _ _ out0 _ hC hH hW ?_
    intro c' y' x' hc' hy' hx'
    have hc2 : c' < img.C := by
      rw [← hC]
      exact hc'
    have hy2 : y' < img.H := by
      rw [← hH]
      exact hy'
    have hx2 : x' < img.W := by
      rw [← hW]
      exact hx'
    exact convolve_data_indep img inter0 (zerosLike img.C img.H img.W)
      (gaussian_kernel_1d σ) c' y' x' hc2 hy2 hx2
  rw [hcongr]
  exact convolve_data_indep _ out0 (zerosLike img.C img.H img.W)
    (gaussian_kernel_1d σ).transpose c y x hc hy hx

/-- Witness for C8 on concrete `1×1×1` real buffers at `σ = 1`. -/
theorem claim_C8_witness :
    ((convolve rImg (zerosLike 1 1 1) rKer).data 0 0 0
        = (convolve rImg rAlt rKer).data 0 0 0) ∧
      ((convolve rImg (zerosLike 1 1 1) rKer).data 1 0 0
        = (zerosLike 1 1 1 : Arr3 ℝ).data 1 0 0) ∧
      ((convolve (convolve rImg (zerosLike 1 1 1) (gaussian_kernel_1d 1))
            rAlt (gaussian_kernel_1d 1).transpose).data 0 0 0
        = (mainCompute rImg 1 true).data 0 0 0) := by
  obtain ⟨h1, h2, h3⟩ :=
    claim_C8 rImg (zerosLike 1 1 1) rAlt (zerosLike 1 1 1) rAlt rKer 1
      rfl rfl rfl
  exact ⟨h1 0 0 0 (by decide) (by decide) (by decide),
    h2 1 0 0 (by decide),
    h3 0 0 0 (by decide) (by decide) (by decide)⟩

/-- Counterexample to claim C9: the claim fails as stated.  For the sample
value `6/5` (above the nominal range), the 255-scaled value is `306`;
the stored byte is `306 mod 256 = 50`, not the clamped `255` — the
conversion wraps around modulo 256. -/
theorem claim_C9_counterexample :
    encodeSample (6/5) = 50 ∧ (50 : ℤ) ≠ 255 := by
  constructor
  · have h1 : ((6:ℚ)/5) * 255 = 306 := by norm_num
    show astype_uint8 ((6/5 : ℚ) * 255) = 50
    rw [h1]
    have h2 : ratTrunc 306 = 306 := by
      unfold ratTrunc
      rw [if_pos (by norm_num)]
      exact Int.floor_intCast 306
    show ratTrunc 306 % 256 = 50
    rw [h2]
    decide
  · decide

/-- Claim C9 as amended: the uint8 conversion in `write_image` does not
clamp: the 255-scaled value is truncated toward zero and reduced modulo
256.  Every sample whose scaled value lies in `[256, 511)` therefore
wraps around and is stored as a byte strictly below 255 (clamping would
store 255). -/
theorem claim_C9 (v : ℚ) (h1 : 256 ≤ v * 255) (h2 : v * 255 < 511) :
    encodeSample v = ratTrunc (v * 255) - 256 ∧ encodeSample v < 255 := by
  have h0 : (0 : ℚ) ≤ v * 255 := by linarith
  have ht : ratTrunc (v * 255) = ⌊v * 255⌋ := by
    unfold ratTrunc
    rw [if_pos h0]
  have hlo : (256 : ℤ) ≤ ratTrunc (v * 255) := by
    rw [ht]
    exact Int.le_floor.mpr (by push_cast; linarith)
  have hhi : ratTrunc (v * 255) < 511 := by
    rw [ht]
    exact Int.floor_lt.mpr (by push_cast; linarith)
  have hmod : ratTrunc (v * 255) % 256 = ratTrunc (v * 255) - 256 := by
    omega
  refine ⟨?_, ?_⟩
  · show ratTrunc (v * 255) % 256 = ratTrunc (v * 255) - 256
    exact hmod
  · show ratTrunc (v * 255) % 256 < 255
    omega

/-- Witness for the amended C9 at `v = 6/5`. -/
theorem claim_C9_witness :
    (256 : ℚ) ≤ (6/5 : ℚ) * 255 ∧ (6/5 : ℚ) * 255 < 511 ∧
      (encodeSample (6/5) = ratTrunc ((6/5 : ℚ) * 255) - 256 ∧
        encodeSample (6/5) < 255) :=
  ⟨by norm_num, by norm_num, claim_C9 (6/5) (by norm_num) (by norm_num)⟩

/-- Counterexample to claim C10: the claim fails as stated for the all-zero
image: `0 * 255 = 0`, so after `write_image` the caller's buffer is left
exactly unchanged and still holds normalized values in `[0,1]`,
contradicting "the buffer passed to encode is not left unchanged". -/
theorem claim_C10_counterexample : write_image_buffer zeroImg = zeroImg := by
  refine Arr3.ext rfl rfl rfl
    (funext fun c => funext fun y => funext fun x => ?_)
  show zeroImg.data c y x * 255 = zeroImg.data c y x
  show (0 : ℚ) * 255 = 0
  ring

/-- Claim C10 as amended: `write_image` multiplies the caller's buffer by
255 in place: the shape is unchanged and every cell afterward holds 255
times its old sample.  Consequently every cell whose sample was nonzero
is changed, and every cell whose sample was above `1/255` leaves the
normalized range `[0,1]`; only degenerate buffers (all samples `≤ 1/255`
in absolute value, e.g. all-zero) still hold values in `[0,1]`
afterwards. -/
theorem claim_C10 {F : Type} [LinearOrderedField F] (img : Arr3 F) :
    (write_image_buffer img).C = img.C ∧
      (write_image_buffer img).H = img.H ∧
      (write_image_buffer img).W = img.W ∧
      (∀ c y x, (write_image_buffer img).data c y x
        = img.data c y x * 255) ∧
      (∀ c y x, img.data c y x ≠ 0 →
        (write_image_buffer img).data c y x ≠ img.data c y x) ∧
      (∀ c y x, 1 / 255 < img.data c y x →
        1 < (write_image_buffer img).data c y x) := by
  refine ⟨rfl, rfl, rfl, fun c y x => rfl, ?_, ?_⟩
  · intro c y x hne heq
    have h : img.data c y x * 255 = img.data c y x := heq
    apply hne
    linarith
  · intro c y x hgt
    show 1 < img.data c y x * 255
    linarith

/-- Witness for the amended C10: the `1×1×1` constant image with value
`1` is changed by `write_image` and its cell leaves `[0,1]`. -/
theorem claim_C10_witness :
    constImg.data 0 0 0 ≠ 0 ∧ 1 / 255 < constImg.data 0 0 0 ∧
      ((write_image_buffer constImg).data 0 0 0 ≠ constImg.data 0 0 0 ∧
        1 < (write_image_buffer constImg).data 0 0 0) :=
  ⟨by norm_num [constImg], by norm_num [constImg],
    (claim_C10 constImg).2.2.2.2.1 0 0 0 (by norm_num [constImg]),
    (claim_C10 constImg).2.2.2.2.2 0 0 0 (by norm_num [constImg])⟩

/-- Witness for C3: the `1×1×1` image with value `3` and the `1×1`
kernel with weight `2`; the output value is bounded by `3` on both
sides. -/
theorem claim_C3_witness :
    px1Ker.kH % 2 = 1 ∧ px1Ker.kW % 2 = 1 ∧
      0 < px1Ker.data (px1Ker.kH / 2 : ℕ) (px1Ker.kW / 2 : ℕ) ∧
      ((3 : ℚ) ≤ (convolve px1Img (zerosLike 1 1 1) px1Ker).data 0 0 0 ∧
        (convolve px1Img (zerosLike 1 1 1) px1Ker).data 0 0 0 ≤ 3) :=
  ⟨by decide, by decide, by norm_num [px1Ker],
    claim_C3 px1Img (zerosLike 1 1 1) px1Ker (by decide) (by decide)
      (fun i j _ _ _ _ => by norm_num [px1Ker])
      (by norm_num [px1Ker]) 3 3
      (fun c y x _ _ _ => by norm_num [px1Img])
      0 0 0 (by decide) (by decide) (by decide)⟩
